import Mathlib

/-!
Shallow embedding of the three algorithm routines of this repository:

* `bubbleSort`  — from `Лабораторная работа 9_10/Сортировка бусинами.cpp`
* `heapSort` / `heapify` — from `Лабораторная работа/пирамидальная сортировка.cpp`
* `fibonacciSearch` — from `Лабораторная работа/поиск по фибоначчи.cpp`

Sequences of C++ `int` are modelled as `List Int` (machine-integer overflow is
not in scope of any claim; values are exact integers).  Every array read is
bounds-checked: an out-of-bounds access of the C++ code (undefined behaviour)
is modelled as an explicit `Except.error`.  The `size_t` arithmetic of the
bubble-sort loop bounds is modelled exactly, including wrap-around on
underflow (`sub64`).  C++ `while` loops are modelled as structural recursion
on an explicit iteration budget that mirrors the loop bound; exhausting the
budget is a distinct error value, and the theorems below prove that the
budgets are never exhausted (this is the termination argument of the loops).
-/

/-- `l[i]` for a C++ `std::vector<int>`; meaningful only for `i < l.length`
(every use below is either guarded by an explicit bounds check or proved
in-bounds). -/
def getI (l : List Int) (i : Nat) : Int := l.getD i 0

/-- `std::swap(l[i], l[j])`. -/
def swapL (l : List Int) (i j : Nat) : List Int :=
  (l.set i (getI l j)).set j (getI l i)

/-- 2^64, the modulus of `size_t` arithmetic. -/
def W64 : Nat := 2 ^ 64

/-- `size_t` subtraction `a - b`: wraps around on underflow.  (For operands
below `2^64` — every value a C++ `size_t` can hold — this is exactly the
machine subtraction.) -/
def sub64 (a b : Nat) : Nat := if a < b then a + W64 - b else a - b

/-- Errors of the bubble-sort model: an out-of-bounds vector access
(undefined behaviour in the C++ source), or exhaustion of the iteration
budget (which the theorems below prove impossible). -/
inductive BErr where
  | oob : BErr
  | fuel : BErr
deriving DecidableEq

/-- The inner loop of `bubbleSort`:
`for (size_t j = 0; j < beads.size() - i - 1; ++j) if (beads[j] > beads[j+1]) { swap; swapped = true; }`.
`bound` is the already-computed value `beads.size() - i - 1`; the `Bool`
threads the `swapped` flag.  Both reads `beads[j]` and `beads[j+1]` must be
in bounds, which the single test `j + 1 < l.length` expresses. -/
def innerPass : Nat → List Int → Nat → Nat → Bool → Except BErr (List Int × Bool)
  | 0, _, _, _, _ => .error .fuel
  | fuel + 1, l, bound, j, sw =>
    if j < bound then
      if j + 1 < l.length then
        if getI l j > getI l (j + 1) then
          innerPass fuel (swapL l j (j + 1)) bound (j + 1) true
        else
          innerPass fuel l bound (j + 1) sw
      else .error .oob
    else .ok (l, sw)

/-- The outer loop of `bubbleSort`:
`for (size_t i = 0; i < beads.size() - 1; ++i) { swapped = false; <inner>; if (!swapped) break; }`.
`n` is `beads.size()` (constant across iterations because swapping preserves
the length). -/
def outerLoop : Nat → Nat → List Int → Nat → Except BErr (List Int)
  | 0, _, _, _ => .error .fuel
  | fuel + 1, n, l, i =>
    if i < sub64 n 1 then
      match innerPass (sub64 (sub64 n i) 1 + 1) l (sub64 (sub64 n i) 1) 0 false with
      | .error e => .error e
      | .ok (l2, sw) => if sw then outerLoop fuel n l2 (i + 1) else .ok l2
    else .ok l

/-- `void bubbleSort(std::vector<int>& beads)` of
`Сортировка бусинами.cpp`.  The outer-loop budget `beads.size() - 1 + 1`
(in `size_t` arithmetic) covers every index the loop guard admits. -/
def bubbleSort (l : List Int) : Except BErr (List Int) :=
  outerLoop (sub64 l.length 1 + 1) l.length l 0

/-- The `largest` computation of `heapify` after the first comparison:
`int largest = i; if (left < n && arr[left] > arr[largest]) largest = left;`
with `left = 2*i+1`. -/
def big1 (a : List Int) (n i : Nat) : Nat :=
  if 2 * i + 1 < n ∧ getI a (2 * i + 1) > getI a i then 2 * i + 1 else i

/-- The `largest` computation of `heapify` after both comparisons:
`if (right < n && arr[right] > arr[largest]) largest = right;` with
`right = 2*i+2`. -/
def chooseBig (a : List Int) (n i : Nat) : Nat :=
  if 2 * i + 2 < n ∧ getI a (2 * i + 2) > getI a (big1 a n i) then 2 * i + 2
  else big1 a n i

/-- `void heapify(vector<int>& arr, int n, int i)` of
`пирамидальная сортировка.cpp`: sift-down at node `i` within the active
bound `n`.  (All its array reads are at indices `< n`; the correctness
theorems are stated for `n ≤ arr.length`, under which every access of the
C++ code is in bounds.) -/
def heapify (a : List Int) (n i : Nat) : List Int :=
  if h : chooseBig a n i = i then a
  else heapify (swapL a i (chooseBig a n i)) n (chooseBig a n i)
termination_by n - i
decreasing_by
  unfold chooseBig big1 at h ⊢
  split_ifs at h ⊢ <;> omega

/-- The heap-construction loop of `heapSort`:
`for (int i = n / 2 - 1; i >= 0; i--) heapify(arr, n, i);`.
`buildLoop a n k` performs the calls `heapify` at `k-1, k-2, …, 0`; the
C++ loop is exactly `buildLoop a n (n / 2)` (for `n ≤ 1` the signed start
index `n/2 - 1` is negative and the loop body never runs, matching the
`n / 2 = 0` case here). -/
def buildLoop (a : List Int) (n : Nat) : Nat → List Int
  | 0 => a
  | k + 1 => buildLoop (heapify a n k) n k

/-- The extraction loop of `heapSort`:
`for (int i = n - 1; i > 0; i--) { swap(arr[0], arr[i]); heapify(arr, i, 0); }`.
`extractLoop a k` performs the iterations with `i = k, k-1, …, 1`. -/
def extractLoop : List Int → Nat → List Int
  | a, 0 => a
  | a, k + 1 => extractLoop (heapify (swapL a 0 (k + 1)) (k + 1) 0) k

/-- `void heapSort(vector<int>& arr)` of `пирамидальная сортировка.cpp`. -/
def heapSort (l : List Int) : List Int :=
  extractLoop (buildLoop l l.length (l.length / 2)) (l.length - 1)

/-- `Desc i j`: node `j` of the implicit binary heap (children of `p` at
`2p+1` and `2p+2`) lies in the subtree rooted at `i`. -/
inductive Desc : Nat → Nat → Prop where
  | refl (i : Nat) : Desc i i
  | left {i k : Nat} : Desc (2 * i + 1) k → Desc i k
  | right {i k : Nat} : Desc (2 * i + 2) k → Desc i k

/-- The max-heap property at node `j` within the active bound `n`: each
child of `j` that lies below the bound is `≤` its parent. -/
def hp (a : List Int) (n j : Nat) : Prop :=
  (2 * j + 1 < n → getI a (2 * j + 1) ≤ getI a j) ∧
  (2 * j + 2 < n → getI a (2 * j + 2) ≤ getI a j)

/-- Errors of the Fibonacci-search model: an out-of-bounds vector access
(undefined behaviour in the C++ source), or exhaustion of the iteration
budget (which the theorems below prove impossible). -/
inductive SErr where
  | oob : SErr
  | fuel : SErr
deriving DecidableEq

/-- A bounds-checked read `arr[i]` with a C++ `int` index: any access
outside `[0, arr.length)` is the error `SErr.oob`. -/
def getE (l : List Int) (i : Int) : Except SErr Int :=
  if 0 ≤ i ∧ i < (l.length : Int) then .ok (getI l i.toNat) else .error .oob

/-- The Fibonacci-generation loop of `fibonacciSearch`:
`while (fibM < n) { fibMMm2 = fibMMm1; fibMMm1 = fibM; fibM = fibMMm2 + fibMMm1; }`;
returns the final `(fibMMm2, fibMMm1, fibM)`. -/
def fibGenLoop : Nat → Int → Int → Int → Int → Except SErr (Int × Int × Int)
  | 0, _, _, _, _ => .error .fuel
  | fuel + 1, n, m2, m1, M =>
    if M < n then fibGenLoop fuel n m1 M (m1 + M) else .ok (m2, m1, M)

/-- The main loop of `fibonacciSearch` (`while (fibM > 1) …`) together with
the post-loop residual check
`if (fibMMm1 && offset + 1 < n && arr[offset + 1] == target) return offset + 1; return -1;`.
Arguments after the budget: the array, the target, `fibMMm2`, `fibMMm1`,
`fibM`, `offset`.  The branch updates are the C++ assignment sequences read
off in order. -/
def searchLoop : Nat → List Int → Int → Int → Int → Int → Int → Except SErr Int
  | 0, _, _, _, _, _, _ => .error .fuel
  | fuel + 1, arr, target, m2, m1, M, offset =>
    if M > 1 then
      match getE arr (min (offset + m2) ((arr.length : Int) - 1)) with
      | .error e => .error e
      | .ok x =>
        if x < target then
          searchLoop fuel arr target (m1 - m2) m2 m1
            (min (offset + m2) ((arr.length : Int) - 1))
        else if x > target then
          searchLoop fuel arr target (2 * m2 - m1) (m1 - m2) m2 offset
        else .ok (min (offset + m2) ((arr.length : Int) - 1))
    else
      if m1 ≠ 0 ∧ offset + 1 < (arr.length : Int) then
        match getE arr (offset + 1) with
        | .error e => .error e
        | .ok y => if y = target then .ok (offset + 1) else .ok (-1)
      else .ok (-1)

/-- `int fibonacciSearch(const std::vector<int>& arr, int target)` of
`поиск по фибоначчи.cpp`.  The initial values mirror the source
(`fibMMm2 = 0; fibMMm1 = 1; fibM = fibMMm2 + fibMMm1; … int offset = -1;`);
the budgets `arr.length + 1` and `fibM.toNat + 1` bound the number of loop
iterations (proved sufficient below: the model never returns `SErr.fuel`). -/
def fibonacciSearch (arr : List Int) (target : Int) : Except SErr Int :=
  match fibGenLoop (arr.length + 1) (arr.length : Int) 0 1 (0 + 1) with
  | .error e => .error e
  | .ok (m2, m1, M) => searchLoop (M.toNat + 1) arr target m2 m1 M (-1)

/-- `(m2, m1, M)` are three consecutive Fibonacci numbers
`(F(k), F(k+1), F(k+2))`. -/
def IsFibTriple (m2 m1 M : Int) : Prop :=
  ∃ k : Nat, m2 = (Nat.fib k : Int) ∧ m1 = (Nat.fib (k + 1) : Int) ∧
    M = (Nat.fib (k + 2) : Int)

theorem getI_eq_getElem (l : List Int) (i : Nat) (h : i < l.length) :
    getI l i = l[i] := by
  simp [getI, List.getD_eq_getElem?_getD, List.getElem?_eq_getElem h]

theorem length_swapL (l : List Int) (i j : Nat) :
    (swapL l i j).length = l.length := by
  simp [swapL]

theorem getI_set_self (l : List Int) (i : Nat) (x : Int) (h : i < l.length) :
    getI (l.set i x) i = x := by
  simp [getI, List.getD_eq_getElem?_getD, List.getElem?_set_self h]

theorem getI_set_ne (l : List Int) (i j : Nat) (x : Int) (h : i ≠ j) :
    getI (l.set i x) j = getI l j := by
  simp [getI, List.getD_eq_getElem?_getD, List.getElem?_set_ne h]

theorem getI_swapL_left (l : List Int) (i j : Nat) (hi : i < l.length)
    (hj : j < l.length) : getI (swapL l i j) i = getI l j := by
  unfold swapL
  rcases eq_or_ne j i with rfl | hne
  · rw [getI_set_self _ _ _ (by simpa using hi)]
  · rw [getI_set_ne _ _ _ _ hne, getI_set_self _ _ _ hi]

theorem getI_swapL_right (l : List Int) (i j : Nat) (hj : j < l.length) :
    getI (swapL l i j) j = getI l i := by
  unfold swapL
  rw [getI_set_self _ _ _ (by simpa using hj)]

theorem getI_swapL_other (l : List Int) (i j k : Nat) (hki : k ≠ i)
    (hkj : k ≠ j) : getI (swapL l i j) k = getI l k := by
  unfold swapL
  rw [getI_set_ne _ _ _ _ (Ne.symm hkj), getI_set_ne _ _ _ _ (Ne.symm hki)]

theorem set_perm_cons (l : List Int) (k : Nat) (x : Int) (h : k < l.length) :
    (l.set k x).Perm (x :: l.eraseIdx k) := by
  induction l generalizing k with
  | nil => simp at h
  | cons a t ih =>
    cases k with
    | zero => simp
    | succ k =>
      simp only [List.set_cons_succ, List.eraseIdx_cons_succ]
      exact ((ih k (by simpa using h)).cons a).trans (List.Perm.swap x a _)

theorem set_getI_self (l : List Int) (k : Nat) : l.set k (getI l k) = l := by
  induction l generalizing k with
  | nil => simp
  | cons a t ih =>
    cases k with
    | zero => simp [getI]
    | succ k =>
      simp only [getI, List.getD_cons_succ, List.set_cons_succ] at ih ⊢
      rw [ih]

theorem getI_cons_eraseIdx (l : List Int) (k : Nat) (h : k < l.length) :
    (getI l k :: l.eraseIdx k).Perm l := by
  have h2 := set_perm_cons l k (getI l k) h
  rw [set_getI_self] at h2
  exact h2.symm

theorem swapL_perm : ∀ (l : List Int) (i j : Nat), i < l.length →
    j < l.length → (swapL l i j).Perm l := by
  intro l
  induction l with
  | nil => intro i j hi; simp at hi
  | cons a t ih =>
    intro i j hi hj
    match i, j with
    | 0, 0 =>
      simp [swapL, getI]
    | 0, k + 1 =>
      have hk : k < t.length := by simpa using hj
      have he : swapL (a :: t) 0 (k + 1) = getI t k :: t.set k a := by
        simp [swapL, getI]
      rw [he]
      exact ((set_perm_cons t k a hk).cons _).trans
        ((List.Perm.swap _ _ _).trans ((getI_cons_eraseIdx t k hk).cons a))
    | k + 1, 0 =>
      have hk : k < t.length := by simpa using hi
      have he : swapL (a :: t) (k + 1) 0 = getI t k :: t.set k a := by
        simp [swapL, getI]
      rw [he]
      exact ((set_perm_cons t k a hk).cons _).trans
        ((List.Perm.swap _ _ _).trans ((getI_cons_eraseIdx t k hk).cons a))
    | k + 1, m + 1 =>
      have he : swapL (a :: t) (k + 1) (m + 1) = a :: swapL t k m := by
        simp [swapL, getI]
      rw [he]
      exact (ih k m (by simpa using hi) (by simpa using hj)).cons a

theorem innerPass_spec : ∀ (fuel : Nat) (l : List Int) (bound j : Nat) (sw : Bool),
    bound < l.length → j ≤ bound → bound - j < fuel →
    (∀ k, k < j → getI l k ≤ getI l j) →
    ∃ l2 sw2, innerPass fuel l bound j sw = .ok (l2, sw2) ∧
      l2.length = l.length ∧
      l2.Perm l ∧
      (∀ k, bound < k → getI l2 k = getI l k) ∧
      (∀ k, k < bound → getI l2 k ≤ getI l2 bound) ∧
      (∀ B : Int, (∀ k, k ≤ bound → getI l k ≤ B) → ∀ k, k ≤ bound → getI l2 k ≤ B) ∧
      (sw2 = false →
        l2 = l ∧ sw = false ∧ ∀ k, j ≤ k → k < bound → getI l k ≤ getI l (k + 1)) := by
  intro fuel
  induction fuel with
  | zero => intro l bound j sw _ _ hf; omega
  | succ fuel ih =>
    intro l bound j sw hb hj hf hmax
    by_cases hjb : j < bound
    · have hj1 : j + 1 < l.length := by omega
      by_cases hgt : getI l j > getI l (j + 1)
      · -- swap branch
        have hstep : innerPass (fuel + 1) l bound j sw =
            innerPass fuel (swapL l j (j + 1)) bound (j + 1) true := by
          simp only [innerPass, if_pos hjb, if_pos hj1, if_pos hgt]
        set l' := swapL l j (j + 1) with hl'
        have hlen' : l'.length = l.length := length_swapL _ _ _
        have hgl : getI l' j = getI l (j + 1) :=
          getI_swapL_left l j (j + 1) (by omega) hj1
        have hgr : getI l' (j + 1) = getI l j := getI_swapL_right l j (j + 1) hj1
        have hgo : ∀ k, k ≠ j → k ≠ j + 1 → getI l' k = getI l k := fun k h1 h2 =>
          getI_swapL_other l j (j + 1) k h1 h2
        have hmax' : ∀ k, k < j + 1 → getI l' k ≤ getI l' (j + 1) := by
          intro k hk
          rcases Nat.lt_succ_iff_lt_or_eq.mp hk with hk | rfl
          · rw [hgo k (by omega) (by omega), hgr]
            exact hmax k hk
          · rw [hgl, hgr]; omega
        obtain ⟨l2, sw2, heq, hlen, hperm, hout, hbmax, hbpres, hnosw⟩ :=
          ih l' bound (j + 1) true (by omega) (by omega) (by omega) hmax'
        refine ⟨l2, sw2, by rw [hstep, heq], by omega, hperm.trans (swapL_perm l j (j + 1) (by omega) hj1),
          ?_, hbmax, ?_, ?_⟩
        · intro k hk
          rw [hout k hk, hgo k (by omega) (by omega)]
        · intro B hB
          refine hbpres B ?_
          intro k hk
          rcases eq_or_ne k j with rfl | h1
          · rw [hgl]; exact hB _ (by omega)
          rcases eq_or_ne k (j + 1) with rfl | h2
          · rw [hgr]; exact hB _ (by omega)
          · rw [hgo k h1 h2]; exact hB _ hk
        · intro hsw2
          exact absurd (hnosw hsw2).2.1 (by simp)
      · -- no-swap branch
        have hstep : innerPass (fuel + 1) l bound j sw =
            innerPass fuel l bound (j + 1) sw := by
          simp only [innerPass, if_pos hjb, if_pos hj1, if_neg hgt]
        have hle : getI l j ≤ getI l (j + 1) := by omega
        have hmax' : ∀ k, k < j + 1 → getI l k ≤ getI l (j + 1) := by
          intro k hk
          rcases Nat.lt_succ_iff_lt_or_eq.mp hk with hk | rfl
          · exact (hmax k hk).trans hle
          · exact hle
        obtain ⟨l2, sw2, heq, hlen, hperm, hout, hbmax, hbpres, hnosw⟩ :=
          ih l bound (j + 1) sw hb (by omega) (by omega) hmax'
        refine ⟨l2, sw2, by rw [hstep, heq], hlen, hperm, hout, hbmax, hbpres, ?_⟩
        intro hsw2
        obtain ⟨h1, h2, h3⟩ := hnosw hsw2
        refine ⟨h1, h2, ?_⟩
        intro k hk1 hk2
        rcases eq_or_ne k j with rfl | hkj
        · exact hle
        · exact h3 k (by omega) hk2
    · -- exit: j = bound
      have hjb' : j = bound := by omega
      subst hjb'
      have hstep : innerPass (fuel + 1) l j j sw = .ok (l, sw) := by
        simp only [innerPass, if_neg hjb]
      refine ⟨l, sw, hstep, rfl, List.Perm.refl l, fun k _ => rfl, hmax,
        fun B hB k hk => hB k hk, ?_⟩
      intro hsw
      exact ⟨rfl, hsw, fun k hk1 hk2 => by omega⟩

theorem sub64_nowrap (a b : Nat) (h : b ≤ a) : sub64 a b = a - b := by
  unfold sub64
  split <;> omega

theorem chain_mono (l : List Int) (m : Nat)
    (hadj : ∀ k, k < m → getI l k ≤ getI l (k + 1)) :
    ∀ p q, p ≤ q → q ≤ m → getI l p ≤ getI l q := by
  intro p q hpq
  induction q, hpq using Nat.le_induction with
  | base => intro _; exact le_refl _
  | succ q hq ihq =>
    intro hqm
    exact (ihq (by omega)).trans (hadj q (by omega))

theorem outerLoop_spec : ∀ (fuel n : Nat) (l : List Int) (i : Nat),
    l.length = n → 1 ≤ n → i ≤ n - 1 → n - 1 - i < fuel →
    (∀ p q, p ≤ q → q < n → n - i ≤ q → getI l p ≤ getI l q) →
    ∃ l2, outerLoop fuel n l i = .ok l2 ∧
      l2.length = n ∧ l2.Perm l ∧
      (∀ p q, p ≤ q → q < n → getI l2 p ≤ getI l2 q) := by
  intro fuel
  induction fuel with
  | zero => intro n l i _ _ _ hf; omega
  | succ fuel ih =>
    intro n l i hlen hn hi hf hI
    have hs1 : sub64 n 1 = n - 1 := sub64_nowrap n 1 hn
    by_cases hg : i < sub64 n 1
    · have hgn : i < n - 1 := by omega
      have hsi : sub64 n i = n - i := sub64_nowrap n i (by omega)
      have hsb : sub64 (sub64 n i) 1 = n - i - 1 := by
        rw [hsi]; exact sub64_nowrap _ 1 (by omega)
      set bound := n - i - 1 with hbd
      obtain ⟨l2, sw, heq, hlen2, hperm2, hout, hbmax, hbpres, hnosw⟩ :=
        innerPass_spec (bound + 1) l bound 0 false (by omega) (by omega) (by omega)
          (fun k hk => by omega)
      have hstep : outerLoop (fuel + 1) n l i =
          (if sw then outerLoop fuel n l2 (i + 1) else .ok l2) := by
        simp only [outerLoop, if_pos hg, hsb, heq]
      cases sw with
      | true =>
        have hI' : ∀ p q, p ≤ q → q < n → n - (i + 1) ≤ q → getI l2 p ≤ getI l2 q := by
          intro p q hpq hqn hq1
          have hqb : bound ≤ q := by omega
          rcases eq_or_lt_of_le hqb with hq | hq
          · subst hq
            rcases eq_or_lt_of_le hpq with rfl | hp
            · exact le_refl _
            · exact hbmax p hp
          · rw [hout q hq]
            by_cases hpb : p ≤ bound
            · refine hbpres (getI l q) ?_ p hpb
              intro k hk
              exact hI k q (by omega) hqn (by omega)
            · rw [hout p (by omega)]
              exact hI p q hpq hqn (by omega)
        obtain ⟨l3, heq3, hlen3, hperm3, hsort3⟩ :=
          ih n l2 (i + 1) (by omega) hn (by omega) (by omega) hI'
        refine ⟨l3, ?_, hlen3, hperm3.trans hperm2, hsort3⟩
        rw [hstep]
        simpa using heq3
      | false =>
        obtain ⟨hl2l, _, hadj⟩ := hnosw rfl
        subst hl2l
        refine ⟨l2, by rw [hstep]; simp, by omega, hperm2, ?_⟩
        intro p q hpq hqn
        by_cases hqb : q ≤ bound
        · exact chain_mono l2 bound (fun k hk => hadj k (by omega) hk) p q hpq hqb
        · exact hI p q hpq hqn (by omega)
    · have hieq : i = n - 1 := by omega
      refine ⟨l, ?_, hlen, List.Perm.refl l, ?_⟩
      · simp only [outerLoop, if_neg hg]
      · intro p q hpq hqn
        rcases Nat.eq_zero_or_pos q with rfl | hq
        · have : p = 0 := by omega
          subst this; exact le_refl _
        · exact hI p q hpq hqn (by omega)

theorem sorted_of_getI_mono (l : List Int)
    (h : ∀ p q, p ≤ q → q < l.length → getI l p ≤ getI l q) :
    List.Sorted (fun x y : Int => x ≤ y) l := by
  rw [List.Sorted, List.pairwise_iff_getElem]
  intro i j hi hj hij
  rw [← getI_eq_getElem l i hi, ← getI_eq_getElem l j hj]
  exact h i j (by omega) hj

theorem getI_mono_of_sorted (l : List Int) (hs : List.Sorted (fun x y : Int => x ≤ y) l) :
    ∀ p q, p ≤ q → q < l.length → getI l p ≤ getI l q := by
  intro p q hpq hq
  rcases eq_or_lt_of_le hpq with rfl | hlt
  · exact le_refl _
  · rw [getI_eq_getElem l p (by omega), getI_eq_getElem l q hq]
    rw [List.Sorted, List.pairwise_iff_getElem] at hs
    exact hs p q (by omega) hq hlt

theorem bubbleSort_spec (l : List Int) (h : l ≠ []) :
    ∃ r, bubbleSort l = .ok r ∧ r.length = l.length ∧ r.Perm l ∧
      List.Sorted (fun x y : Int => x ≤ y) r := by
  have hn : 1 ≤ l.length := by
    cases l with
    | nil => exact absurd rfl h
    | cons a t => simp
  have hs1 : sub64 l.length 1 = l.length - 1 := sub64_nowrap _ 1 hn
  obtain ⟨l2, heq, hlen, hperm, hsort⟩ :=
    outerLoop_spec (sub64 l.length 1 + 1) l.length l 0 rfl hn (by omega) (by omega)
      (fun p q hpq hq hq0 => by omega)
  exact ⟨l2, heq, hlen, hperm, sorted_of_getI_mono l2 (fun p q hpq hq => hsort p q hpq (by omega))⟩

/-- C1, counterexample to the claim as stated: on the empty sequence
`bubbleSort` does not produce a sorted permutation — the `size_t`
pass-bound `beads.size() - 1` underflows and the inner loop immediately
reads `beads[0]` out of bounds. -/
theorem bubbleSort_empty_not_sorted : bubbleSort ([] : List Int) = Except.error BErr.oob := rfl

/-- C1 (amended): for every nonempty finite sequence of integers,
`bubbleSort` succeeds and reorders it into non-decreasing order, yielding a
permutation of the input of the same length. -/
theorem bubbleSort_sorts_nonempty (l : List Int) (h : l ≠ []) :
    ∃ r, bubbleSort l = Except.ok r ∧ r.Perm l ∧ r.length = l.length ∧
      List.Sorted (fun x y : Int => x ≤ y) r := by
  obtain ⟨r, h1, h2, h3, h4⟩ := bubbleSort_spec l h
  exact ⟨r, h1, h3, h2, h4⟩

/-- C1, witness: the amended theorem applied to the sample sequence of the
source file. -/
theorem bubbleSort_sorts_nonempty_witness :
    ([5, 2, 9, 1, 5, 6] : List Int) ≠ [] ∧
      ∃ r, bubbleSort [5, 2, 9, 1, 5, 6] = Except.ok r ∧
        r.Perm [5, 2, 9, 1, 5, 6] ∧ r.length = ([5, 2, 9, 1, 5, 6] : List Int).length ∧
        List.Sorted (fun x y : Int => x ≤ y) r :=
  ⟨by decide, bubbleSort_sorts_nonempty [5, 2, 9, 1, 5, 6] (by decide)⟩

/-- C5: the single-element case of `bubbleSort` is a no-op, but on the
empty sequence the pass-bound computation `beads.size() - 1` underflows in
`size_t` and the code reads `beads[0]` out of bounds — the code violates
the claim's empty-sequence requirement. -/
theorem bubbleSort_boundary_behaviour :
    bubbleSort ([] : List Int) = Except.error BErr.oob ∧
      ∀ x : Int, bubbleSort [x] = Except.ok [x] :=
  ⟨rfl, fun _ => rfl⟩

theorem fib_cast_rec (j : Nat) :
    (Nat.fib (j + 2) : Int) = (Nat.fib j : Int) + (Nat.fib (j + 1) : Int) := by
  exact_mod_cast congrArg (Nat.cast : Nat → Int) (@Nat.fib_add_two j)

theorem isFibTriple_init : IsFibTriple 0 1 (0 + 1) :=
  ⟨0, by simp [Nat.fib_one, Nat.fib_two]⟩

theorem isFibTriple_up {m2 m1 M : Int} (h : IsFibTriple m2 m1 M) :
    IsFibTriple m1 M (m1 + M) := by
  obtain ⟨k, h2, h1, hM⟩ := h
  refine ⟨k + 1, h1, by rw [show k + 1 + 1 = k + 2 from by omega]; exact hM, ?_⟩
  have hr := fib_cast_rec (k + 1)
  rw [show k + 1 + 2 = k + 3 from by omega, show k + 1 + 1 = k + 2 from by omega] at hr
  rw [show k + 1 + 2 = k + 3 from by omega]
  omega

theorem isFibTriple_pos {m2 m1 M : Int} (h : IsFibTriple m2 m1 M) :
    0 ≤ m2 ∧ 1 ≤ m1 ∧ 1 ≤ M ∧ m2 ≤ m1 ∧ m1 ≤ M ∧ m2 + m1 = M := by
  obtain ⟨k, h2, h1, hM⟩ := h
  have hp1 : 0 < Nat.fib (k + 1) := Nat.fib_pos.mpr (by omega)
  have hp2 : 0 < Nat.fib (k + 2) := Nat.fib_pos.mpr (by omega)
  have hle1 : Nat.fib k ≤ Nat.fib (k + 1) := Nat.fib_le_fib_succ
  have hle2 : Nat.fib (k + 1) ≤ Nat.fib (k + 2) := Nat.fib_le_fib_succ
  have hadd := fib_cast_rec k
  subst h2 h1 hM
  constructor
  · positivity
  refine ⟨by exact_mod_cast hp1, by exact_mod_cast hp2, by exact_mod_cast hle1,
    by exact_mod_cast hle2, by omega⟩

theorem isFibTriple_down {m2 m1 M : Int} (h : IsFibTriple m2 m1 M) (hM : 1 < M) :
    IsFibTriple (m1 - m2) m2 m1 ∧ 1 ≤ m2 ∧ m1 < M := by
  obtain ⟨k, h2, h1, hM'⟩ := h
  have hk : 1 ≤ k := by
    rcases Nat.eq_zero_or_pos k with rfl | hk
    · rw [show (0:Nat) + 2 = 2 from rfl, Nat.fib_two] at hM'
      omega
    · exact hk
  have hfib := fib_cast_rec (k - 1)
  rw [show k - 1 + 2 = k + 1 from by omega, show k - 1 + 1 = k from by omega] at hfib
  have hlt : Nat.fib (k + 1) < Nat.fib (k + 2) := Nat.fib_lt_fib_succ (by omega)
  have hlt' : (Nat.fib (k + 1) : Int) < (Nat.fib (k + 2) : Int) := by exact_mod_cast hlt
  have hpos : 0 < Nat.fib k := Nat.fib_pos.mpr (by omega)
  have hpos' : (0 : Int) < (Nat.fib k : Int) := by exact_mod_cast hpos
  refine ⟨⟨k - 1, by omega, by rw [show k - 1 + 1 = k from by omega]; exact h2,
    by rw [show k - 1 + 2 = k + 1 from by omega]; exact h1⟩, by omega, by omega⟩

theorem isFibTriple_down2 {m2 m1 M : Int} (h : IsFibTriple m2 m1 M) (hM : 1 < M) :
    (IsFibTriple (2 * m2 - m1) (m1 - m2) m2 ∨
      (2 * m2 - m1 = 1 ∧ m1 - m2 = 0 ∧ m2 = 1)) ∧ m2 < M := by
  obtain ⟨k, h2, h1, hM'⟩ := h
  have hk : 1 ≤ k := by
    rcases Nat.eq_zero_or_pos k with rfl | hk
    · rw [show (0:Nat) + 2 = 2 from rfl, Nat.fib_two] at hM'
      omega
    · exact hk
  have hlt : Nat.fib (k + 1) < Nat.fib (k + 2) := Nat.fib_lt_fib_succ (by omega)
  have hlt' : (Nat.fib (k + 1) : Int) < (Nat.fib (k + 2) : Int) := by exact_mod_cast hlt
  have hle : Nat.fib k ≤ Nat.fib (k + 1) := Nat.fib_le_fib_succ
  have hle' : (Nat.fib k : Int) ≤ (Nat.fib (k + 1) : Int) := by exact_mod_cast hle
  have hM2 : m2 < M := by omega
  rcases eq_or_lt_of_le hk with hk1 | hk2
  · -- k = 1: the triple is (1, 1, 2) and the shifted state is (1, 0, 1)
    subst h2 h1 hM'
    rw [← hk1]
    rw [← hk1] at hM2
    refine ⟨Or.inr ?_, hM2⟩
    rw [Nat.fib_one, Nat.fib_two]
    norm_num
  · -- k ≥ 2: a genuine Fibonacci triple two positions down
    have ha := fib_cast_rec (k - 1)
    rw [show k - 1 + 2 = k + 1 from by omega, show k - 1 + 1 = k from by omega] at ha
    have hb := fib_cast_rec (k - 2)
    rw [show k - 2 + 2 = k from by omega, show k - 2 + 1 = k - 1 from by omega] at hb
    refine ⟨Or.inl ⟨k - 2, by omega, by rw [show k - 2 + 1 = k - 1 from by omega]; omega,
      by rw [show k - 2 + 2 = k from by omega]; exact h2⟩, hM2⟩

theorem fibGenLoop_spec : ∀ (fuel : Nat) (n m2 m1 M : Int),
    IsFibTriple m2 m1 M → (n - M).toNat < fuel →
    ∃ m2' m1' M', fibGenLoop fuel n m2 m1 M = .ok (m2', m1', M') ∧
      IsFibTriple m2' m1' M' ∧ n ≤ M' ∧
      (m1' < n ∨ (m2' = m2 ∧ m1' = m1 ∧ M' = M ∧ ¬ M < n)) := by
  intro fuel
  induction fuel with
  | zero => intro n m2 m1 M _ hf; omega
  | succ fuel ih =>
    intro n m2 m1 M hT hf
    obtain ⟨hp0, hp1, hp2, hp3, hp4, hp5⟩ := isFibTriple_pos hT
    by_cases hlt : M < n
    · have hstep : fibGenLoop (fuel + 1) n m2 m1 M = fibGenLoop fuel n m1 M (m1 + M) := by
        simp only [fibGenLoop, if_pos hlt]
      obtain ⟨m2', m1', M', heq, hT', hge, hlast⟩ :=
        ih n m1 M (m1 + M) (isFibTriple_up hT) (by omega)
      refine ⟨m2', m1', M', by rw [hstep, heq], hT', hge, Or.inl ?_⟩
      rcases hlast with hlast | ⟨_, h1, _, _⟩
      · exact hlast
      · omega
    · refine ⟨m2, m1, M, ?_, hT, by omega, Or.inr ⟨rfl, rfl, rfl, hlt⟩⟩
      simp only [fibGenLoop, if_neg hlt]

theorem searchLoop_safe : ∀ (fuel : Nat) (arr : List Int) (target m2 m1 M offset : Int),
    (IsFibTriple m2 m1 M ∨ (m2 = 1 ∧ m1 = 0 ∧ M = 1)) →
    -1 ≤ offset → offset < (arr.length : Int) →
    (1 < M → 1 ≤ (arr.length : Int)) →
    M.toNat < fuel →
    ∃ r, searchLoop fuel arr target m2 m1 M offset = .ok r ∧
      (r = -1 ∨ (0 ≤ r ∧ r < (arr.length : Int))) := by
  intro fuel
  induction fuel with
  | zero => intro arr target m2 m1 M offset _ _ _ _ hf; omega
  | succ fuel ih =>
    intro arr target m2 m1 M offset hT ho1 ho2 hN hf
    by_cases hM : M > 1
    · have hTt : IsFibTriple m2 m1 M := by
        rcases hT with hT | ⟨_, _, hM1⟩
        · exact hT
        · omega
      have hm2 : 1 ≤ m2 := (isFibTriple_down hTt hM).2.1
      have hn1 : 1 ≤ (arr.length : Int) := hN hM
      set i0 : Int := min (offset + m2) ((arr.length : Int) - 1) with hi0
      have hi0l : 0 ≤ i0 := le_min (by omega) (by omega)
      have hi0r : i0 < (arr.length : Int) := by
        have : i0 ≤ (arr.length : Int) - 1 := min_le_right _ _
        omega
      have hgetE : getE arr i0 = .ok (getI arr i0.toNat) := by
        rw [getE, if_pos ⟨hi0l, hi0r⟩]
      have hstep : searchLoop (fuel + 1) arr target m2 m1 M offset =
          (if getI arr i0.toNat < target then
            searchLoop fuel arr target (m1 - m2) m2 m1 i0
          else if getI arr i0.toNat > target then
            searchLoop fuel arr target (2 * m2 - m1) (m1 - m2) m2 offset
          else .ok i0) := by
        simp only [searchLoop, if_pos hM, ← hi0, hgetE]
      rcases lt_trichotomy (getI arr i0.toNat) target with hc | hc | hc
      · rw [hstep, if_pos hc]
        obtain ⟨hd, _, hm1M⟩ := isFibTriple_down hTt hM
        obtain ⟨_, hm1p, _, _, _, _⟩ := isFibTriple_pos hTt
        exact ih arr target (m1 - m2) m2 m1 i0 (Or.inl hd) (by omega) hi0r
          (fun _ => hn1) (by omega)
      · rw [hstep, if_neg (by omega), if_neg (by omega)]
        exact ⟨i0, rfl, Or.inr ⟨hi0l, hi0r⟩⟩
      · rw [hstep, if_neg (by omega), if_pos hc]
        obtain ⟨hd2, hm2M⟩ := isFibTriple_down2 hTt hM
        exact ih arr target (2 * m2 - m1) (m1 - m2) m2 offset hd2 ho1 ho2
          (fun _ => hn1) (by omega)
    · by_cases hres : m1 ≠ 0 ∧ offset + 1 < (arr.length : Int)
      · have hgetE : getE arr (offset + 1) = .ok (getI arr (offset + 1).toNat) := by
          rw [getE, if_pos ⟨by omega, hres.2⟩]
        have hstep : searchLoop (fuel + 1) arr target m2 m1 M offset =
            (if getI arr (offset + 1).toNat = target then .ok (offset + 1)
            else .ok (-1)) := by
          simp only [searchLoop, if_neg hM, if_pos hres, hgetE]
        by_cases hy : getI arr (offset + 1).toNat = target
        · rw [hstep, if_pos hy]
          exact ⟨offset + 1, rfl, Or.inr ⟨by omega, hres.2⟩⟩
        · rw [hstep, if_neg hy]
          exact ⟨-1, rfl, Or.inl rfl⟩
      · have hstep : searchLoop (fuel + 1) arr target m2 m1 M offset = .ok (-1) := by
          simp only [searchLoop, if_neg hM, if_neg hres]
        exact ⟨-1, by rw [hstep], Or.inl rfl⟩

theorem getI_mono_int (arr : List Int) (hs : List.Sorted (fun x y : Int => x ≤ y) arr)
    (p q : Int) (hp : 0 ≤ p) (hpq : p ≤ q) (hq : q < (arr.length : Int)) :
    getI arr p.toNat ≤ getI arr q.toNat :=
  getI_mono_of_sorted arr hs p.toNat q.toNat (by omega) (by omega)

theorem searchLoop_sorted : ∀ (fuel : Nat) (arr : List Int) (target m2 m1 M offset : Int),
    List.Sorted (fun x y : Int => x ≤ y) arr →
    (IsFibTriple m2 m1 M ∨ (m2 = 1 ∧ m1 = 0 ∧ M = 1)) →
    -1 ≤ offset → offset < (arr.length : Int) →
    (1 < M → 1 ≤ (arr.length : Int)) →
    (∀ k : Nat, (k : Int) ≤ offset → getI arr k < target) →
    (∀ k : Nat, offset + M + 1 ≤ (k : Int) → (k : Int) < (arr.length : Int) →
      target < getI arr k) →
    (m1 = 0 → ¬(offset + 1 < (arr.length : Int) ∧ getI arr (offset + 1).toNat = target)) →
    M.toNat < fuel →
    ∃ r, searchLoop fuel arr target m2 m1 M offset = .ok r ∧
      ((0 ≤ r ∧ r < (arr.length : Int) ∧ getI arr r.toNat = target) ∨
        (r = -1 ∧ ∀ k : Nat, k < arr.length → getI arr k ≠ target)) := by
  intro fuel
  induction fuel with
  | zero => intro arr target m2 m1 M offset _ _ _ _ _ _ _ _ hf; omega
  | succ fuel ih =>
    intro arr target m2 m1 M offset hs hT ho1 ho2 hN hLow hHigh hM1 hf
    by_cases hM : M > 1
    · have hTt : IsFibTriple m2 m1 M := by
        rcases hT with hT | ⟨_, _, hM1e⟩
        · exact hT
        · omega
      obtain ⟨hp0, hp1, hp2, hp3, hp4, hp5⟩ := isFibTriple_pos hTt
      have hm2 : 1 ≤ m2 := (isFibTriple_down hTt hM).2.1
      have hn1 : 1 ≤ (arr.length : Int) := hN hM
      set i0 : Int := min (offset + m2) ((arr.length : Int) - 1) with hi0
      have hi0l : 0 ≤ i0 := le_min (by omega) (by omega)
      have hi0r : i0 < (arr.length : Int) := by
        have : i0 ≤ (arr.length : Int) - 1 := min_le_right _ _
        omega
      have hgetE : getE arr i0 = .ok (getI arr i0.toNat) := by
        rw [getE, if_pos ⟨hi0l, hi0r⟩]
      have hstep : searchLoop (fuel + 1) arr target m2 m1 M offset =
          (if getI arr i0.toNat < target then
            searchLoop fuel arr target (m1 - m2) m2 m1 i0
          else if getI arr i0.toNat > target then
            searchLoop fuel arr target (2 * m2 - m1) (m1 - m2) m2 offset
          else .ok i0) := by
        simp only [searchLoop, if_pos hM, ← hi0, hgetE]
      have hmincases : i0 = offset + m2 ∨ (i0 = (arr.length : Int) - 1 ∧
          (arr.length : Int) - 1 < offset + m2) := by
        rcases min_cases (offset + m2) ((arr.length : Int) - 1) with ⟨h1, _⟩ | ⟨h1, h2⟩
        · exact Or.inl (by rw [hi0, h1])
        · exact Or.inr ⟨by rw [hi0, h1], h2⟩
      rcases lt_trichotomy (getI arr i0.toNat) target with hc | hc | hc
      · -- arr[i] < target: eliminate the lower part, offset := i
        rw [hstep, if_pos hc]
        obtain ⟨hd, _, hm1M⟩ := isFibTriple_down hTt hM
        have hLow' : ∀ k : Nat, (k : Int) ≤ i0 → getI arr k < target := by
          intro k hk
          rcases le_or_lt ((k : Int)) offset with hko | hko
          · exact hLow k hko
          · have : getI arr k ≤ getI arr i0.toNat := by
              have := getI_mono_int arr hs (k : Int) i0 (by omega) hk hi0r
              simpa using this
            omega
        have hHigh' : ∀ k : Nat, i0 + m1 + 1 ≤ (k : Int) →
            (k : Int) < (arr.length : Int) → target < getI arr k := by
          intro k hk1 hk2
          rcases hmincases with hm | ⟨hm, hgt⟩
          · exact hHigh k (by omega) hk2
          · omega
        exact ih arr target (m1 - m2) m2 m1 i0 hs (Or.inl hd) (by omega) hi0r
          (fun _ => hn1) hLow' hHigh' (fun h0 => by omega) (by omega)
      · -- found
        rw [hstep, if_neg (by omega), if_neg (by omega)]
        exact ⟨i0, rfl, Or.inl ⟨hi0l, hi0r, hc⟩⟩
      · -- arr[i] > target: eliminate the upper part
        rw [hstep, if_neg (by omega), if_pos hc]
        obtain ⟨hd2, hm2M⟩ := isFibTriple_down2 hTt hM
        have hHigh' : ∀ k : Nat, offset + m2 + 1 ≤ (k : Int) →
            (k : Int) < (arr.length : Int) → target < getI arr k := by
          intro k hk1 hk2
          rcases hmincases with hm | ⟨hm, hgt⟩
          · have : getI arr i0.toNat ≤ getI arr k := by
              have := getI_mono_int arr hs i0 (k : Int) hi0l (by omega) hk2
              simpa using this
            omega
          · omega
        have hM1' : m1 - m2 = 0 →
            ¬(offset + 1 < (arr.length : Int) ∧ getI arr (offset + 1).toNat = target) := by
          intro h0
          rcases hd2 with hd2 | ⟨_, _, hm2e⟩
          · obtain ⟨_, hpp, _, _, _, _⟩ := isFibTriple_pos hd2
            omega
          · rintro ⟨hb, he⟩
            rcases hmincases with hm | ⟨hm, hgt⟩
            · rw [hm2e] at hm
              rw [show offset + 1 = i0 from by omega] at he
              omega
            · omega
        exact ih arr target (2 * m2 - m1) (m1 - m2) m2 offset hs hd2 ho1 ho2
          (fun _ => hn1) hLow hHigh' hM1' (by omega)
    · -- loop exit: M = 1, residual check
      have hMe : M = 1 := by
        rcases hT with hT | ⟨_, _, hMe⟩
        · obtain ⟨_, _, h1, _, _, _⟩ := isFibTriple_pos hT
          omega
        · exact hMe
      by_cases hres : m1 ≠ 0 ∧ offset + 1 < (arr.length : Int)
      · have hgetE : getE arr (offset + 1) = .ok (getI arr (offset + 1).toNat) := by
          rw [getE, if_pos ⟨by omega, hres.2⟩]
        have hstep : searchLoop (fuel + 1) arr target m2 m1 M offset =
            (if getI arr (offset + 1).toNat = target then .ok (offset + 1)
            else .ok (-1)) := by
          simp only [searchLoop, if_neg hM, if_pos hres, hgetE]
        by_cases hy : getI arr (offset + 1).toNat = target
        · rw [hstep, if_pos hy]
          exact ⟨offset + 1, rfl, Or.inl ⟨by omega, hres.2, hy⟩⟩
        · rw [hstep, if_neg hy]
          refine ⟨-1, rfl, Or.inr ⟨rfl, ?_⟩⟩
          intro k hk
          rcases lt_trichotomy ((k : Int)) (offset + 1) with hko | hko | hko
          · exact ne_of_lt (hLow k (by omega))
          · rw [show k = (offset + 1).toNat from by omega]
            exact hy
          · exact (ne_of_lt (hHigh k (by omega) (by omega))).symm
      · have hstep : searchLoop (fuel + 1) arr target m2 m1 M offset = .ok (-1) := by
          simp only [searchLoop, if_neg hM, if_neg hres]
        refine ⟨-1, by rw [hstep], Or.inr ⟨rfl, ?_⟩⟩
        intro k hk
        rcases lt_trichotomy ((k : Int)) (offset + 1) with hko | hko | hko
        · exact ne_of_lt (hLow k (by omega))
        · by_cases hm10 : m1 = 0
          · intro he
            refine hM1 hm10 ⟨by omega, ?_⟩
            rw [show (offset + 1).toNat = k from by omega]
            exact he
          · exfalso
            have : ¬ offset + 1 < (arr.length : Int) := fun hlt => hres ⟨hm10, hlt⟩
            omega
        · exact (ne_of_lt (hHigh k (by omega) (by omega))).symm

theorem fibonacciSearch_safe (arr : List Int) (target : Int) :
    ∃ r, fibonacciSearch arr target = .ok r ∧
      (r = -1 ∨ (0 ≤ r ∧ r < (arr.length : Int))) := by
  obtain ⟨m2', m1', M', heq, hT', hge, hlast⟩ :=
    fibGenLoop_spec (arr.length + 1) (arr.length : Int) 0 1 (0 + 1)
      isFibTriple_init (by omega)
  obtain ⟨hq0, hq1, hq2, hq3, hq4, hq5⟩ := isFibTriple_pos hT'
  have hN : 1 < M' → 1 ≤ (arr.length : Int) := by
    intro hM
    rcases hlast with hlast | ⟨_, _, hMe, _⟩
    · omega
    · omega
  have hrun : fibonacciSearch arr target =
      searchLoop (M'.toNat + 1) arr target m2' m1' M' (-1) := by
    simp only [fibonacciSearch, heq]
  obtain ⟨r, hr, hrange⟩ := searchLoop_safe (M'.toNat + 1) arr target m2' m1' M' (-1)
    (Or.inl hT') (by omega) (by omega) hN (by omega)
  exact ⟨r, by rw [hrun, hr], hrange⟩

theorem fibonacciSearch_sorted_spec (arr : List Int) (target : Int)
    (hs : List.Sorted (fun x y : Int => x ≤ y) arr) :
    ∃ r, fibonacciSearch arr target = .ok r ∧
      ((0 ≤ r ∧ r < (arr.length : Int) ∧ getI arr r.toNat = target) ∨
        (r = -1 ∧ ∀ k : Nat, k < arr.length → getI arr k ≠ target)) := by
  obtain ⟨m2', m1', M', heq, hT', hge, hlast⟩ :=
    fibGenLoop_spec (arr.length + 1) (arr.length : Int) 0 1 (0 + 1)
      isFibTriple_init (by omega)
  obtain ⟨hq0, hq1, hq2, hq3, hq4, hq5⟩ := isFibTriple_pos hT'
  have hN : 1 < M' → 1 ≤ (arr.length : Int) := by
    intro hM
    rcases hlast with hlast | ⟨_, _, hMe, _⟩
    · omega
    · omega
  have hrun : fibonacciSearch arr target =
      searchLoop (M'.toNat + 1) arr target m2' m1' M' (-1) := by
    simp only [fibonacciSearch, heq]
  obtain ⟨r, hr, hconc⟩ := searchLoop_sorted (M'.toNat + 1) arr target m2' m1' M' (-1)
    hs (Or.inl hT') (by omega) (by omega) hN
    (fun k hk => by omega) (fun k hk1 hk2 => by omega) (fun h0 => by omega) (by omega)
  exact ⟨r, by rw [hrun, hr], hconc⟩

/-- C3: on an ascending-sorted sequence containing the target value,
`fibonacciSearch` returns an in-range index at which the sequence holds the
target. -/
theorem fibonacciSearch_finds (arr : List Int) (v : Int)
    (hs : List.Sorted (fun x y : Int => x ≤ y) arr) (hv : v ∈ arr) :
    ∃ i : Int, fibonacciSearch arr v = Except.ok i ∧ 0 ≤ i ∧
      i < (arr.length : Int) ∧ getI arr i.toNat = v := by
  obtain ⟨r, hr, hconc⟩ := fibonacciSearch_sorted_spec arr v hs
  rcases hconc with ⟨h1, h2, h3⟩ | ⟨_, habs⟩
  · exact ⟨r, hr, h1, h2, h3⟩
  · exfalso
    obtain ⟨j, hj, hjv⟩ := List.mem_iff_getElem.mp hv
    exact habs j hj (by rw [getI_eq_getElem arr j hj]; exact hjv)

/-- C3, witness: the search scenario of the source file,
`search([10,22,35,40,45,50,80,82,85,90,100], 85)`. -/
theorem fibonacciSearch_finds_witness :
    (List.Sorted (fun x y : Int => x ≤ y) [10, 22, 35, 40, 45, 50, 80, 82, 85, 90, 100] ∧
      (85 : Int) ∈ [10, 22, 35, 40, 45, 50, 80, 82, 85, 90, 100]) ∧
    ∃ i : Int, fibonacciSearch [10, 22, 35, 40, 45, 50, 80, 82, 85, 90, 100] 85 =
        Except.ok i ∧ 0 ≤ i ∧
        i < (([10, 22, 35, 40, 45, 50, 80, 82, 85, 90, 100] : List Int).length : Int) ∧
        getI [10, 22, 35, 40, 45, 50, 80, 82, 85, 90, 100] i.toNat = 85 :=
  ⟨⟨by decide, by decide⟩,
    fibonacciSearch_finds [10, 22, 35, 40, 45, 50, 80, 82, 85, 90, 100] 85
      (by decide) (by decide)⟩

/-- C4: on an ascending-sorted sequence that does not contain the target,
`fibonacciSearch` returns the not-found signal `-1`; in particular it does so
on the empty sequence. -/
theorem fibonacciSearch_not_found (arr : List Int) (v : Int)
    (hs : List.Sorted (fun x y : Int => x ≤ y) arr) (hv : v ∉ arr) :
    fibonacciSearch arr v = Except.ok (-1) := by
  obtain ⟨r, hr, hconc⟩ := fibonacciSearch_sorted_spec arr v hs
  rcases hconc with ⟨h1, h2, h3⟩ | ⟨hre, _⟩
  · exfalso
    refine hv ?_
    rw [← h3]
    rw [getI_eq_getElem arr r.toNat (by omega)]
    exact List.getElem_mem _
  · rw [hr, hre]

/-- C4, witness: the not-found scenario of the spec,
`search([10,22,35,40,45,50,80,82,85,90,100], 99)`, together with the empty
sequence boundary case `search([], 99)`. -/
theorem fibonacciSearch_not_found_witness :
    (List.Sorted (fun x y : Int => x ≤ y) [10, 22, 35, 40, 45, 50, 80, 82, 85, 90, 100] ∧
      (99 : Int) ∉ [10, 22, 35, 40, 45, 50, 80, 82, 85, 90, 100] ∧
      List.Sorted (fun x y : Int => x ≤ y) ([] : List Int) ∧ (99 : Int) ∉ ([] : List Int)) ∧
    fibonacciSearch [10, 22, 35, 40, 45, 50, 80, 82, 85, 90, 100] 99 = Except.ok (-1) ∧
    fibonacciSearch ([] : List Int) 99 = Except.ok (-1) :=
  ⟨⟨by decide, by decide, by decide, by decide⟩,
    fibonacciSearch_not_found _ 99 (by decide) (by decide),
    fibonacciSearch_not_found ([] : List Int) 99 (by decide) (by decide)⟩

/-- C6: `fibonacciSearch` never performs an out-of-bounds read, on any input
sequence (sorted or not, empty included) and any target: every array access
of the model is bounds-checked, and the out-of-bounds error is unreachable. -/
theorem fibonacciSearch_no_oob (arr : List Int) (target : Int) :
    fibonacciSearch arr target ≠ Except.error SErr.oob := by
  obtain ⟨r, hr, _⟩ := fibonacciSearch_safe arr target
  rw [hr]
  simp

/-- C6, witness: the no-out-of-bounds theorem applied to the empty sequence
(where the claim demands that no index at all is probed). -/
theorem fibonacciSearch_no_oob_witness :
    fibonacciSearch ([] : List Int) 7 ≠ Except.error SErr.oob :=
  fibonacciSearch_no_oob ([] : List Int) 7

/-- C9: on any input sequence and target (no sortedness assumed) the
result of `fibonacciSearch` is either exactly `-1` or an index in
`[0, |S|)`; in particular `-1` can never coincide with a valid index. -/
theorem fibonacciSearch_result_range (arr : List Int) (target : Int) :
    ∃ r : Int, fibonacciSearch arr target = Except.ok r ∧
      (r = -1 ∨ (0 ≤ r ∧ r < (arr.length : Int))) :=
  fibonacciSearch_safe arr target

/-- C10: both loops of `fibonacciSearch` terminate on every input: the
iteration budgets derived from the loop variants (`fibM` strictly increases
towards `n` in the generation loop, and strictly decreases in the main
loop) are never exhausted. -/
theorem fibonacciSearch_terminates (arr : List Int) (target : Int) :
    fibonacciSearch arr target ≠ Except.error SErr.fuel := by
  obtain ⟨r, hr, _⟩ := fibonacciSearch_safe arr target
  rw [hr]
  simp

/-- C10, witness: the termination theorem applied to a concrete unsorted
sequence. -/
theorem fibonacciSearch_terminates_witness :
    fibonacciSearch ([3, 1, 2] : List Int) 2 ≠ Except.error SErr.fuel :=
  fibonacciSearch_terminates ([3, 1, 2] : List Int) 2

/-- C7, counterexample to the claim as stated: for the empty sequence
(`N = 0`) the generation loop of `fibonacciSearch` (with exactly the
initial values and iteration budget the function uses) exits with
`fibM = 1`, yet `F(0) = 0` is a Fibonacci number `≥ N` that is smaller —
so `fibM` is not the smallest Fibonacci number `≥ N`. -/
theorem fibGenLoop_zero_not_minimal :
    fibGenLoop (0 + 1) ((0 : Nat) : Int) 0 1 (0 + 1) = Except.ok (0, 1, 1) ∧
      (Nat.fib 0 : Int) = 0 ∧ ((0 : Nat) : Int) ≤ (Nat.fib 0 : Int) ∧
      (Nat.fib 0 : Int) < 1 := by
  refine ⟨rfl, ?_, ?_, ?_⟩ <;> simp [Nat.fib_zero]

/-- C7 (amended): for every nonempty input sequence (`N ≥ 1`), the
Fibonacci-generation loop of `fibonacciSearch` exits with
`(fibMMm2, fibMMm1, fibM) = (F(k), F(k+1), F(k+2))` for some `k`, where
`fibM = F(k+2)` is the smallest Fibonacci number `≥ N`. -/
theorem fibGenLoop_smallest (n : Nat) (hn : 1 ≤ n) :
    ∃ k : Nat, fibGenLoop (n + 1) (n : Int) 0 1 (0 + 1) =
        Except.ok ((Nat.fib k : Int), (Nat.fib (k + 1) : Int), (Nat.fib (k + 2) : Int)) ∧
      (n : Int) ≤ (Nat.fib (k + 2) : Int) ∧
      ∀ j : Nat, (n : Int) ≤ (Nat.fib j : Int) → (Nat.fib (k + 2) : Int) ≤ (Nat.fib j : Int) := by
  obtain ⟨m2', m1', M', heq, hT', hge, hlast⟩ :=
    fibGenLoop_spec (n + 1) (n : Int) 0 1 (0 + 1) isFibTriple_init (by omega)
  obtain ⟨k, hk2, hk1, hkM⟩ := hT'
  subst hk2 hk1 hkM
  refine ⟨k, heq, hge, ?_⟩
  intro j hj
  rcases hlast with hsm | ⟨_, h1e, hMe, _⟩
  · -- the loop ran: fib (k+1) < n, so any fib j ≥ n exceeds fib (k+1)
    have hjk : Nat.fib (k + 1) < Nat.fib j := by exact_mod_cast lt_of_lt_of_le hsm hj
    have hjge : k + 2 ≤ j := by
      by_contra hlt
      push_neg at hlt
      exact absurd (Nat.fib_mono (show j ≤ k + 1 from by omega)) (by omega)
    exact_mod_cast Nat.fib_mono hjge
  · -- the loop never ran: n = 1 and fib (k+2) = 1 is minimal among fib j ≥ 1
    have hMe1 : (Nat.fib (k + 2) : Int) = 1 := by rw [hMe]; norm_num
    omega

/-- C7, witness: the amended theorem applied to `N = 11`, the length of the
sample array of the source file (there the loop exits with
`(fibMMm2, fibMMm1, fibM) = (5, 8, 13)`). -/
theorem fibGenLoop_smallest_witness :
    1 ≤ 11 ∧
      ∃ k : Nat, fibGenLoop (11 + 1) ((11 : Nat) : Int) 0 1 (0 + 1) =
          Except.ok ((Nat.fib k : Int), (Nat.fib (k + 1) : Int), (Nat.fib (k + 2) : Int)) ∧
        ((11 : Nat) : Int) ≤ (Nat.fib (k + 2) : Int) ∧
        ∀ j : Nat, ((11 : Nat) : Int) ≤ (Nat.fib j : Int) →
          (Nat.fib (k + 2) : Int) ≤ (Nat.fib j : Int) :=
  ⟨by omega, fibGenLoop_smallest 11 (by omega)⟩

theorem desc_le {i k : Nat} (h : Desc i k) : i ≤ k := by
  induction h with
  | refl i => exact le_refl i
  | left h ih => omega
  | right h ih => omega

theorem desc_lower {i k : Nat} (h : Desc i k) (hne : k ≠ i) : 2 * i + 1 ≤ k := by
  cases h with
  | refl => exact absurd rfl hne
  | left h => have := desc_le h; omega
  | right h => have := desc_le h; omega

theorem desc_trans {i j k : Nat} (h1 : Desc i j) : Desc j k → Desc i k := by
  induction h1 with
  | refl => exact id
  | left h ih => exact fun h2 => Desc.left (ih h2)
  | right h ih => exact fun h2 => Desc.right (ih h2)

theorem desc_child_left (i : Nat) : Desc i (2 * i + 1) := Desc.left (Desc.refl _)

theorem desc_child_right (i : Nat) : Desc i (2 * i + 2) := Desc.right (Desc.refl _)

theorem desc_child_inv {b c : Nat} (h : Desc b c) :
    ∀ a : Nat, c = 2 * a + 1 ∨ c = 2 * a + 2 → b = c ∨ Desc b a := by
  induction h with
  | refl i => exact fun a _ => Or.inl rfl
  | @left i c h ih =>
    intro a ha
    rcases ih a ha with he | hd
    · rcases ha with ha | ha
      · have hia : i = a := by omega
        subst hia
        exact Or.inr (Desc.refl _)
      · exfalso; omega
    · exact Or.inr (Desc.left hd)
  | @right i c h ih =>
    intro a ha
    rcases ih a ha with he | hd
    · rcases ha with ha | ha
      · exfalso; omega
      · have hia : i = a := by omega
        subst hia
        exact Or.inr (Desc.refl _)
    · exact Or.inr (Desc.right hd)

theorem desc_total {a j : Nat} (h1 : Desc a j) : ∀ b, Desc b j → Desc a b ∨ Desc b a := by
  induction h1 with
  | refl i => exact fun b hb => Or.inr hb
  | @left i c h ih =>
    intro b hb
    rcases ih b hb with h1 | h2
    · exact Or.inl (Desc.left h1)
    · rcases desc_child_inv h2 i (Or.inl rfl) with he | hd
      · exact Or.inl (by rw [he]; exact desc_child_left i)
      · exact Or.inr hd
  | @right i c h ih =>
    intro b hb
    rcases ih b hb with h1 | h2
    · exact Or.inl (Desc.right h1)
    · rcases desc_child_inv h2 i (Or.inr rfl) with he | hd
      · exact Or.inl (by rw [he]; exact desc_child_right i)
      · exact Or.inr hd

theorem desc_zero : ∀ j : Nat, Desc 0 j := by
  intro j
  induction j using Nat.strong_induction_on with
  | _ j ih =>
    rcases Nat.eq_zero_or_pos j with rfl | hj
    · exact Desc.refl 0
    · have hp : (j - 1) / 2 < j := by omega
      have hd := ih ((j - 1) / 2) hp
      have hpar : j = 2 * ((j - 1) / 2) + 1 ∨ j = 2 * ((j - 1) / 2) + 2 := by omega
      rcases hpar with he | he
      · refine desc_trans hd ?_
        have hc := desc_child_left ((j - 1) / 2)
        rwa [← he] at hc
      · refine desc_trans hd ?_
        have hc := desc_child_right ((j - 1) / 2)
        rwa [← he] at hc

theorem chooseBig_cases (a : List Int) (n i : Nat) :
    chooseBig a n i = i ∨
      (i < chooseBig a n i ∧ chooseBig a n i < n ∧
        (chooseBig a n i = 2 * i + 1 ∨ chooseBig a n i = 2 * i + 2)) := by
  unfold chooseBig big1
  split_ifs <;> omega

theorem chooseBig_hp (a : List Int) (n i : Nat) (h : chooseBig a n i = i) :
    hp a n i := by
  unfold chooseBig big1 at h
  split_ifs at h with h1 h2 h3
  all_goals first
    | exact absurd h (by omega)
    | (constructor <;> intro hc <;> omega)

theorem chooseBig_ge_self (a : List Int) (n i : Nat) :
    getI a i ≤ getI a (chooseBig a n i) := by
  unfold chooseBig big1
  split_ifs <;> omega

theorem chooseBig_ge_left (a : List Int) (n i : Nat) (hl : 2 * i + 1 < n) :
    getI a (2 * i + 1) ≤ getI a (chooseBig a n i) := by
  unfold chooseBig big1
  split_ifs <;> omega

theorem chooseBig_ge_right (a : List Int) (n i : Nat) (hr : 2 * i + 2 < n) :
    getI a (2 * i + 2) ≤ getI a (chooseBig a n i) := by
  unfold chooseBig big1
  split_ifs <;> omega

theorem heapify_length : ∀ (a : List Int) (n i : Nat),
    (heapify a n i).length = a.length := by
  intro a n i
  induction a, n, i using heapify.induct with
  | case1 a n i h => rw [heapify, dif_pos h]
  | case2 a n i h ih => rw [heapify, dif_neg h, ih, length_swapL]

theorem heapify_ge : ∀ (a : List Int) (n i : Nat), ∀ k, n ≤ k →
    getI (heapify a n i) k = getI a k := by
  intro a n i
  induction a, n, i using heapify.induct with
  | case1 a n i h =>
    intro k _
    rw [heapify, dif_pos h]
  | case2 a n i h ih =>
    intro k hk
    rw [heapify, dif_neg h]
    obtain ⟨hig, hgn, _⟩ : i < chooseBig a n i ∧ chooseBig a n i < n ∧ _ :=
      (chooseBig_cases a n i).resolve_left h
    rw [ih k hk, getI_swapL_other a i _ k (by omega) (by omega)]

theorem heapify_out : ∀ (a : List Int) (n i : Nat), ∀ k, ¬ Desc i k →
    getI (heapify a n i) k = getI a k := by
  intro a n i
  induction a, n, i using heapify.induct with
  | case1 a n i h =>
    intro k _
    rw [heapify, dif_pos h]
  | case2 a n i h ih =>
    intro k hk
    rw [heapify, dif_neg h]
    obtain ⟨hig, hgn, hgch⟩ : i < chooseBig a n i ∧ chooseBig a n i < n ∧
        (chooseBig a n i = 2 * i + 1 ∨ chooseBig a n i = 2 * i + 2) :=
      (chooseBig_cases a n i).resolve_left h
    have hdig : Desc i (chooseBig a n i) := by
      rcases hgch with he | he
      · have hc := desc_child_left i
        rwa [← he] at hc
      · have hc := desc_child_right i
        rwa [← he] at hc
    have hnd : ¬ Desc (chooseBig a n i) k := fun hd => hk (desc_trans hdig hd)
    have hki : k ≠ i := fun he => hk (by rw [he]; exact Desc.refl i)
    have hkg : k ≠ chooseBig a n i := fun he => hk (by rw [he]; exact hdig)
    rw [ih k hnd, getI_swapL_other a i _ k hki hkg]

theorem heapify_perm : ∀ (a : List Int) (n i : Nat), n ≤ a.length →
    (heapify a n i).Perm a := by
  intro a n i
  induction a, n, i using heapify.induct with
  | case1 a n i h =>
    intro _
    rw [heapify, dif_pos h]
  | case2 a n i h ih =>
    intro hn
    rw [heapify, dif_neg h]
    obtain ⟨hig, hgn, _⟩ : i < chooseBig a n i ∧ chooseBig a n i < n ∧ _ :=
      (chooseBig_cases a n i).resolve_left h
    exact (ih (by rw [length_swapL]; omega)).trans
      (swapL_perm a i (chooseBig a n i) (by omega) (by omega))

theorem heapify_bound : ∀ (a : List Int) (n i : Nat), n ≤ a.length → ∀ B : Int,
    (∀ k, Desc i k → k < n → getI a k ≤ B) →
    ∀ k, Desc i k → k < n → getI (heapify a n i) k ≤ B := by
  intro a n i
  induction a, n, i using heapify.induct with
  | case1 a n i h =>
    intro _ B hB k hk hkn
    rw [heapify, dif_pos h]
    exact hB k hk hkn
  | case2 a n i h ih =>
    intro hn B hB k hk hkn
    rw [heapify, dif_neg h]
    obtain ⟨hig, hgn, hgch⟩ : i < chooseBig a n i ∧ chooseBig a n i < n ∧
        (chooseBig a n i = 2 * i + 1 ∨ chooseBig a n i = 2 * i + 2) :=
      (chooseBig_cases a n i).resolve_left h
    set g := chooseBig a n i with hg
    have hdig : Desc i g := by
      rcases hgch with he | he
      · have hc := desc_child_left i
        rwa [← he] at hc
      · have hc := desc_child_right i
        rwa [← he] at hc
    have hB' : ∀ k', Desc g k' → k' < n → getI (swapL a i g) k' ≤ B := by
      intro k' hd hk'n
      by_cases hkg : k' = g
      · subst hkg
        rw [getI_swapL_right a i g (by omega)]
        exact hB i (Desc.refl i) (by omega)
      · have := desc_lower hd hkg
        rw [getI_swapL_other a i g k' (by omega) hkg]
        exact hB k' (desc_trans hdig hd) hk'n
    by_cases hdg : Desc g k
    · exact ih (by rw [length_swapL]; omega) B hB' k hdg hkn
    · rw [heapify_out _ n g k hdg]
      by_cases hki : k = i
      · subst hki
        rw [getI_swapL_left a k g (by omega) (by omega)]
        exact hB g hdig hgn
      · have hkg : k ≠ g := fun he => hdg (by rw [he]; exact Desc.refl g)
        rw [getI_swapL_other a i g k hki hkg]
        exact hB k hk hkn

theorem subtree_max (a : List Int) (n : Nat) : ∀ (r k : Nat), Desc r k →
    (∀ j, Desc r j → hp a n j) → k < n → getI a k ≤ getI a r := by
  intro r k hk
  induction hk with
  | refl i => exact fun _ _ => le_refl _
  | @left i c h ih =>
    intro hpre hkn
    have h1 : getI a c ≤ getI a (2 * i + 1) :=
      ih (fun j hj => hpre j (Desc.left hj)) hkn
    have hcn : 2 * i + 1 < n := by
      have := desc_le h
      omega
    have h2 : getI a (2 * i + 1) ≤ getI a i := (hpre i (Desc.refl i)).1 hcn
    omega
  | @right i c h ih =>
    intro hpre hkn
    have h1 : getI a c ≤ getI a (2 * i + 2) :=
      ih (fun j hj => hpre j (Desc.right hj)) hkn
    have hcn : 2 * i + 2 < n := by
      have := desc_le h
      omega
    have h2 : getI a (2 * i + 2) ≤ getI a i := (hpre i (Desc.refl i)).2 hcn
    omega

theorem root_max (a : List Int) (n : Nat) (hall : ∀ j, hp a n j) :
    ∀ k, k < n → getI a k ≤ getI a 0 :=
  fun k hk => subtree_max a n 0 k (desc_zero k) (fun j _ => hall j) hk

theorem heapify_hp : ∀ (a : List Int) (n i : Nat), n ≤ a.length →
    (∀ j, Desc i j → j ≠ i → hp a n j) →
    ∀ j, Desc i j → hp (heapify a n i) n j := by
  intro a n i
  induction a, n, i using heapify.induct with
  | case1 a n i h =>
    intro hn hpre j hj
    rw [heapify, dif_pos h]
    by_cases hji : j = i
    · subst hji
      exact chooseBig_hp a n j h
    · exact hpre j hj hji
  | case2 a n i h ih =>
    intro hn hpre j hj
    rw [heapify, dif_neg h]
    obtain ⟨hig, hgn, hgch⟩ := (chooseBig_cases a n i).resolve_left h
    set g := chooseBig a n i with hg
    have hdig : Desc i g := by
      rcases hgch with he | he
      · have hc := desc_child_left i
        rwa [← he] at hc
      · have hc := desc_child_right i
        rwa [← he] at hc
    have hbi : getI (swapL a i g) i = getI a g := getI_swapL_left a i g (by omega) (by omega)
    have hbg : getI (swapL a i g) g = getI a i := getI_swapL_right a i g (by omega)
    have hbo : ∀ k, k ≠ i → k ≠ g → getI (swapL a i g) k = getI a k :=
      fun k h1 h2 => getI_swapL_other a i g k h1 h2
    have hpre' : ∀ j', Desc g j' → j' ≠ g → hp (swapL a i g) n j' := by
      intro j' hd hne
      have hj1 : 2 * g + 1 ≤ j' := desc_lower hd hne
      have hpa : hp a n j' := hpre j' (desc_trans hdig hd) (by omega)
      constructor
      · intro hcn
        rw [hbo j' (by omega) (by omega), hbo (2 * j' + 1) (by omega) (by omega)]
        exact hpa.1 hcn
      · intro hcn
        rw [hbo j' (by omega) (by omega), hbo (2 * j' + 2) (by omega) (by omega)]
        exact hpa.2 hcn
    have hsm : ∀ k, Desc g k → k < n → getI a k ≤ getI a g := by
      intro k hk hkn
      refine subtree_max a n g k hk ?_ hkn
      intro j' hj'
      exact hpre j' (desc_trans hdig hj') (by have := desc_le hj'; omega)
    have hbound : ∀ k, Desc g k → k < n →
        getI (heapify (swapL a i g) n g) k ≤ getI a g := by
      refine heapify_bound (swapL a i g) n g (by rw [length_swapL]; exact hn)
        (getI a g) ?_
      intro k hd hkn
      by_cases hkg : k = g
      · subst hkg
        rw [hbg]
        have hgs := chooseBig_ge_self a n i
        rw [← hg] at hgs
        exact hgs
      · have := desc_lower hd hkg
        rw [hbo k (by omega) hkg]
        exact hsm k hd hkn
    have hrec : ∀ j', Desc g j' → hp (heapify (swapL a i g) n g) n j' :=
      ih (by rw [length_swapL]; exact hn) hpre'
    by_cases hdgj : Desc g j
    · exact hrec j hdgj
    · have hcj : getI (heapify (swapL a i g) n g) j = getI (swapL a i g) j :=
        heapify_out _ n g j hdgj
      by_cases hji : j = i
      · subst hji
        constructor
        · intro hcn
          rcases hgch with he | he
          · have h1 := hbound g (Desc.refl g) hgn
            rw [hcj, hbi, ← he]
            exact h1
          · have ho : ¬ Desc g (2 * j + 1) := by
              intro hd
              rcases eq_or_ne (2 * j + 1) g with he2 | hne2
              · omega
              · have := desc_lower hd hne2
                omega
            have h2 : getI (heapify (swapL a j g) n g) (2 * j + 1) = getI a (2 * j + 1) := by
              rw [heapify_out _ n g _ ho, hbo _ (by omega) (by omega)]
            rw [hcj, hbi, h2]
            have h3 := chooseBig_ge_left a n j hcn
            rw [← hg] at h3
            exact h3
        · intro hcn
          rcases hgch with he | he
          · have ho : ¬ Desc g (2 * j + 2) := by
              intro hd
              rcases eq_or_ne (2 * j + 2) g with he2 | hne2
              · omega
              · have := desc_lower hd hne2
                omega
            have h2 : getI (heapify (swapL a j g) n g) (2 * j + 2) = getI a (2 * j + 2) := by
              rw [heapify_out _ n g _ ho, hbo _ (by omega) (by omega)]
            rw [hcj, hbi, h2]
            have h3 := chooseBig_ge_right a n j hcn
            rw [← hg] at h3
            exact h3
          · have h1 := hbound g (Desc.refl g) hgn
            rw [hcj, hbi, ← he]
            exact h1
      · have hji' : 2 * i + 1 ≤ j := desc_lower hj hji
        have hpa : hp a n j := hpre j hj hji
        have hjg : j ≠ g := fun he => hdgj (by rw [he]; exact Desc.refl g)
        have hch : ∀ c, c = 2 * j + 1 ∨ c = 2 * j + 2 → ¬ Desc g c := by
          intro c hcc hd
          have hjc : Desc j c := by
            rcases hcc with rfl | rfl
            · exact desc_child_left j
            · exact desc_child_right j
          rcases desc_total hd j hjc with h1 | h2
          · exact hdgj h1
          · rcases eq_or_ne g j with he | hne
            · exact hdgj (by rw [he]; exact Desc.refl j)
            · have := desc_lower h2 hne
              rcases hgch with he | he <;> omega
        constructor
        · intro hcn
          have hc1 : ¬ Desc g (2 * j + 1) := hch _ (Or.inl rfl)
          have hne1 : (2 * j + 1) ≠ g := fun he => hc1 (by rw [he]; exact Desc.refl g)
          rw [hcj, hbo j hji hjg, heapify_out _ n g _ hc1, hbo _ (by omega) hne1]
          exact hpa.1 hcn
        · intro hcn
          have hc2 : ¬ Desc g (2 * j + 2) := hch _ (Or.inr rfl)
          have hne2 : (2 * j + 2) ≠ g := fun he => hc2 (by rw [he]; exact Desc.refl g)
          rw [hcj, hbo j hji hjg, heapify_out _ n g _ hc2, hbo _ (by omega) hne2]
          exact hpa.2 hcn

theorem hp_mono {a : List Int} {n m j : Nat} (h : hp a n j) (hmn : m ≤ n) :
    hp a m j :=
  ⟨fun hc => h.1 (by omega), fun hc => h.2 (by omega)⟩

theorem buildLoop_length : ∀ (k : Nat) (a : List Int) (n : Nat),
    (buildLoop a n k).length = a.length := by
  intro k
  induction k with
  | zero => intro a n; rfl
  | succ k ih =>
    intro a n
    show (buildLoop (heapify a n k) n k).length = a.length
    rw [ih, heapify_length]

theorem buildLoop_perm : ∀ (k : Nat) (a : List Int) (n : Nat), n ≤ a.length →
    (buildLoop a n k).Perm a := by
  intro k
  induction k with
  | zero => intro a n _; exact List.Perm.refl a
  | succ k ih =>
    intro a n hn
    exact (ih (heapify a n k) n (by rw [heapify_length]; exact hn)).trans
      (heapify_perm a n k hn)

theorem buildLoop_hp : ∀ (k : Nat) (a : List Int) (n : Nat), n ≤ a.length →
    (∀ j, k ≤ j → hp a n j) → ∀ j, hp (buildLoop a n k) n j := by
  intro k
  induction k with
  | zero =>
    intro a n _ hall j
    exact hall j (by omega)
  | succ k ih =>
    intro a n hn hall
    refine ih (heapify a n k) n (by rw [heapify_length]; exact hn) ?_
    intro j hj
    by_cases hd : Desc k j
    · refine heapify_hp a n k hn ?_ j hd
      intro j' hj' hne
      exact hall j' (by have := desc_lower hj' hne; omega)
    · have hjk : k < j := by
        rcases eq_or_lt_of_le hj with he | h2
        · exfalso
          apply hd
          rw [← he]
          exact Desc.refl k
        · exact h2
      have hout : ∀ c, ¬ Desc k c → getI (heapify a n k) c = getI a c :=
        heapify_out a n k
      have hchild : ∀ c, c = 2 * j + 1 ∨ c = 2 * j + 2 → ¬ Desc k c := by
        intro c hcc hdc
        rcases desc_child_inv hdc j hcc with he | hdj
        · omega
        · exact hd hdj
      have hpa := hall j (by omega)
      constructor
      · intro hc
        rw [hout j hd, hout _ (hchild _ (Or.inl rfl))]
        exact hpa.1 hc
      · intro hc
        rw [hout j hd, hout _ (hchild _ (Or.inr rfl))]
        exact hpa.2 hc

theorem extractLoop_length : ∀ (k : Nat) (a : List Int),
    (extractLoop a k).length = a.length := by
  intro k
  induction k with
  | zero => intro a; rfl
  | succ k ih =>
    intro a
    show (extractLoop (heapify (swapL a 0 (k + 1)) (k + 1) 0) k).length = a.length
    rw [ih, heapify_length, length_swapL]

theorem extractLoop_perm : ∀ (k : Nat) (a : List Int), k < a.length →
    (extractLoop a k).Perm a := by
  intro k
  induction k with
  | zero => intro a _; exact List.Perm.refl a
  | succ k ih =>
    intro a hk
    have hlb : (swapL a 0 (k + 1)).length = a.length := length_swapL a 0 (k + 1)
    have h1 : (extractLoop (heapify (swapL a 0 (k + 1)) (k + 1) 0) k).Perm
        (heapify (swapL a 0 (k + 1)) (k + 1) 0) :=
      ih _ (by rw [heapify_length, hlb]; omega)
    exact h1.trans ((heapify_perm _ (k + 1) 0 (by omega)).trans
      (swapL_perm a 0 (k + 1) (by omega) hk))

theorem extractLoop_sorted : ∀ (k : Nat) (a : List Int), k < a.length →
    (∀ j, hp a (k + 1) j) →
    (∀ p q, p ≤ q → q < a.length → k + 1 ≤ q → getI a p ≤ getI a q) →
    ∀ p q, p ≤ q → q < a.length → 1 ≤ q →
      getI (extractLoop a k) p ≤ getI (extractLoop a k) q := by
  intro k
  induction k with
  | zero =>
    intro a _ _ hord p q hpq hq hq1
    exact hord p q hpq hq hq1
  | succ k ih =>
    intro a hk hheap hord
    have hlb : (swapL a 0 (k + 1)).length = a.length := length_swapL a 0 (k + 1)
    set b := swapL a 0 (k + 1) with hbdef
    set c := heapify b (k + 1) 0 with hcdef
    have hlc : c.length = a.length := by rw [hcdef, heapify_length, hlb]
    have hb0 : getI b 0 = getI a (k + 1) := getI_swapL_left a 0 (k + 1) (by omega) hk
    have hbk : getI b (k + 1) = getI a 0 := getI_swapL_right a 0 (k + 1) hk
    have hbo : ∀ m, m ≠ 0 → m ≠ k + 1 → getI b m = getI a m :=
      fun m h1 h2 => getI_swapL_other a 0 (k + 1) m h1 h2
    have hcge : ∀ m, k + 1 ≤ m → getI c m = getI b m :=
      fun m hm => heapify_ge b (k + 1) 0 m hm
    have hroot : ∀ m, m < k + 2 → getI a m ≤ getI a 0 :=
      root_max a (k + 2) hheap
    -- the prefix of length k+1 of c is again a heap
    have hcheap : ∀ j, hp c (k + 1) j := by
      intro j
      refine heapify_hp b (k + 1) 0 (by omega) ?_ j (desc_zero j)
      intro j' hj' hne
      have hj1 : 1 ≤ j' := by
        have := desc_lower hj' hne
        omega
      constructor
      · intro hc
        rw [hbo j' (by omega) (by omega), hbo (2 * j' + 1) (by omega) (by omega)]
        exact (hp_mono (hheap j') (by omega)).1 hc
      · intro hc
        rw [hbo j' (by omega) (by omega), hbo (2 * j' + 2) (by omega) (by omega)]
        exact (hp_mono (hheap j') (by omega)).2 hc
    -- order invariant for the smaller instance
    have hord' : ∀ p q, p ≤ q → q < c.length → k + 1 ≤ q → getI c p ≤ getI c q := by
      intro p q hpq hq hq1
      rw [hlc] at hq
      rcases eq_or_lt_of_le hq1 with hqe | hqgt
      · -- q = k + 1 : c q = a 0, and every prefix value of c is ≤ a 0
        rw [← hqe] at hpq hq ⊢
        rw [hcge (k + 1) (le_refl _), hbk]
        rcases eq_or_lt_of_le hpq with hpe | hplt
        · rw [hpe, hcge (k + 1) (le_refl _), hbk]
        · have hbnd : ∀ m, Desc 0 m → m < k + 1 → getI b m ≤ getI a 0 := by
            intro m _ hm
            rcases Nat.eq_zero_or_pos m with rfl | hm1
            · rw [hb0]
              exact hroot (k + 1) (by omega)
            · rw [hbo m (by omega) (by omega)]
              exact hroot m (by omega)
          exact heapify_bound b (k + 1) 0 (by omega) (getI a 0) hbnd p (desc_zero p)
            (by omega)
      · -- q ≥ k + 2 : c q = a q
        have hcq : getI c q = getI a q := by
          rw [hcge q (by omega), hbo q (by omega) (by omega)]
        rw [hcq]
        rcases le_or_lt p k with hpk | hpk
        · have hbnd : ∀ m, Desc 0 m → m < k + 1 → getI b m ≤ getI a q := by
            intro m _ hm
            rcases Nat.eq_zero_or_pos m with rfl | hm1
            · rw [hb0]
              exact hord (k + 1) q (by omega) hq (by omega)
            · rw [hbo m (by omega) (by omega)]
              exact hord m q (by omega) hq (by omega)
          exact heapify_bound b (k + 1) 0 (by omega) (getI a q) hbnd p (desc_zero p)
            (by omega)
        · rcases eq_or_lt_of_le hpk with hpe | hplt
          · rw [hcge p (by omega), ← hpe, hbk]
            exact hord 0 q (by omega) hq (by omega)
          · rw [hcge p (by omega), hbo p (by omega) (by omega)]
            exact hord p q hpq hq (by omega)
    have hrw : extractLoop a (k + 1) = extractLoop c k := by
      rw [hcdef, hbdef]
      rfl
    intro p q hpq hq hq1
    rw [hrw]
    exact ih c (by omega) hcheap hord' p q hpq (by omega) hq1

theorem heapSort_length (l : List Int) : (heapSort l).length = l.length := by
  rw [heapSort, extractLoop_length, buildLoop_length]

theorem heapSort_perm (l : List Int) : (heapSort l).Perm l := by
  rw [heapSort]
  rcases Nat.eq_zero_or_pos l.length with h0 | h1
  · have he : l = [] := List.length_eq_zero.mp h0
    subst he
    exact List.Perm.refl _
  · refine (extractLoop_perm (l.length - 1) _ ?_).trans
      (buildLoop_perm (l.length / 2) l l.length (le_refl _))
    rw [buildLoop_length]
    omega

theorem heapSort_sorted (l : List Int) :
    List.Sorted (fun x y : Int => x ≤ y) (heapSort l) := by
  rcases Nat.eq_zero_or_pos l.length with h0 | h1
  · have he : l = [] := List.length_eq_zero.mp h0
    subst he
    simp [heapSort, buildLoop, extractLoop]
  · have hbl : (buildLoop l l.length (l.length / 2)).length = l.length :=
      buildLoop_length _ _ _
    have hbh : ∀ j, hp (buildLoop l l.length (l.length / 2)) l.length j := by
      refine buildLoop_hp (l.length / 2) l l.length (le_refl _) ?_
      intro j hj
      exact ⟨fun hc => absurd hc (by omega), fun hc => absurd hc (by omega)⟩
    refine sorted_of_getI_mono _ ?_
    intro p q hpq hq
    rw [heapSort_length] at hq
    rcases Nat.eq_zero_or_pos q with rfl | hq1
    · have hp0 : p = 0 := by omega
      subst hp0
      exact le_refl _
    · rw [heapSort]
      refine extractLoop_sorted (l.length - 1) _ (by omega) ?_ ?_ p q hpq (by omega) hq1
      · intro j
        rw [show l.length - 1 + 1 = l.length from by omega]
        exact hbh j
      · intro p' q' hpq' hq' hq1'
        rw [hbl] at hq'
        omega

/-- C2: `heapSort` reorders every finite integer sequence in place into
non-decreasing order; the result is a permutation of the input with the
same length. -/
theorem heapSort_sorts (l : List Int) :
    (heapSort l).Perm l ∧ List.Sorted (fun x y : Int => x ≤ y) (heapSort l) ∧
      (heapSort l).length = l.length :=
  ⟨heapSort_perm l, heapSort_sorted l, heapSort_length l⟩

/-- C8, counterexample to the claim as stated: for `bubbleSort` the
composition `sort(sort(S))` is undefined at `S = []` — the first
application already reads out of bounds instead of producing a result. -/
theorem sort_idempotent_counterexample :
    ¬ ∃ t : List Int, bubbleSort ([] : List Int) = Except.ok t ∧
      bubbleSort t = Except.ok t := by
  rintro ⟨t, h1, _⟩
  have he : bubbleSort ([] : List Int) = Except.error BErr.oob := rfl
  rw [he] at h1
  exact Except.noConfusion h1

/-- C8 (amended): sorting is idempotent wherever it is defined —
`heapSort (heapSort S) = heapSort S` for every `S`, and whenever
`bubbleSort S` succeeds with result `R` (every nonempty `S`), a second
application returns `R` unchanged. -/
theorem sort_idempotent :
    (∀ l : List Int, heapSort (heapSort l) = heapSort l) ∧
      (∀ l r : List Int, bubbleSort l = Except.ok r → bubbleSort r = Except.ok r) := by
  constructor
  · intro l
    exact List.eq_of_perm_of_sorted (heapSort_perm (heapSort l))
      (heapSort_sorted (heapSort l)) (heapSort_sorted l)
  · intro l r hr
    by_cases hl : l = []
    · subst hl
      have he : bubbleSort ([] : List Int) = Except.error BErr.oob := rfl
      rw [he] at hr
      exact Except.noConfusion hr
    · obtain ⟨r', he, hlen, hperm, hsor⟩ := bubbleSort_spec l hl
      rw [he] at hr
      have hrr : r' = r := by
        injection hr
      subst hrr
      have hlx : 1 ≤ l.length := by
        cases l with
        | nil => exact absurd rfl hl
        | cons x t => simp
      have hrne : r' ≠ [] := by
        intro h0
        rw [h0] at hlen
        simp at hlen
        omega
      obtain ⟨r2, he2, hlen2, hperm2, hsor2⟩ := bubbleSort_spec r' hrne
      have hre : r2 = r' := List.eq_of_perm_of_sorted hperm2 hsor2 hsor
      rw [he2, hre]

/-- C8, witness: idempotence at the sample sequence of the heap-sort source
file, and second-application stability of `bubbleSort` at a concrete
sequence. -/
theorem sort_idempotent_witness :
    heapSort (heapSort [12, 3, 5, 7, 19, 1]) = heapSort [12, 3, 5, 7, 19, 1] ∧
      bubbleSort ([2, 5] : List Int) = Except.ok [2, 5] :=
  ⟨sort_idempotent.1 [12, 3, 5, 7, 19, 1],
    sort_idempotent.2 [5, 2] [2, 5] rfl⟩
